import Mathlib

/-!
Verification of the `zi` repository's overlay filesystem, session history and
apply workflow against their natural-language specification.

The filesystem layers (the agentfs delta store and the real disk accessed via
`node:fs`) are modelled as finite association lists from absolute, normalized
path strings to entries.  The overlay code (`src/fs/overlay-agentfs.ts`) is
embedded operation by operation; fallible operations return `Except`.
Paths are taken to be already absolute and normalized, on which the source's
`toAbsolute` (a `resolve` against `baseDir`) acts as the identity for absolute
inputs; `toAbsolute` is embedded with that simplification.
-/

namespace Zi

/-- JSON values, used to model the results of `JSON.parse` in
`loadManifest` and the `args`/`result` payloads of tool invocations. -/
inductive Json where
  | null
  | bool (b : Bool)
  | num (n : Int)
  | str (s : String)
  | arr (xs : List Json)
  | obj (fields : List (String × Json))

namespace Overlay

/-- An entry stored in one filesystem layer: a regular file with its content
(byte strings modelled as `String`), a directory, or a symbolic link. -/
inductive Entry where
  | file (content : String)
  | dir
  | link (target : String)
deriving DecidableEq, Repr

/-- A filesystem layer (the agentfs delta store, or the real disk seen through
`node:fs`): a finite map from absolute paths to entries. -/
abbrev FS := List (String × Entry)

namespace FS

/-- Key lookup in a layer. -/
def lookup (fs : FS) (p : String) : Option Entry :=
  (fs.find? (fun kv => kv.1 = p)).map (fun kv => kv.2)

/-- Store `e` at `p`: replace the binding when the key is present, append
otherwise. -/
def write (fs : FS) (p : String) (e : Entry) : FS :=
  if fs.any (fun kv => kv.1 = p) then
    fs.map (fun kv => if kv.1 = p then (p, e) else kv)
  else
    fs ++ [(p, e)]

/-- Remove the binding at `p` (no error when absent; the overlay's delete
operations swallow delta-layer failures anyway). -/
def erase (fs : FS) (p : String) : FS :=
  fs.filter (fun kv => kv.1 ≠ p)

/-- Read a regular file's content; `none` models every read failure
(absent path, directory, unresolved symlink). -/
def readFile (fs : FS) (p : String) : Option String :=
  match fs.lookup p with
  | some (.file c) => some c
  | _ => none

/-- Read a symlink target; `none` models failure (absent or not a link). -/
def readLink (fs : FS) (p : String) : Option String :=
  match fs.lookup p with
  | some (.link t) => some t
  | _ => none

end FS

/-- String prefix test over the underlying character lists (all paths here
are ASCII, so character positions and JavaScript string indices agree). -/
def strIsPre (pre s : String) : Bool :=
  pre.data.isPrefixOf s.data

/-- `slice(n)` over the character list. -/
def strDrop (s : String) (n : Nat) : String :=
  ⟨s.data.drop n⟩

/-- `takeWhile` over the character list. -/
def strTakeWhile (f : Char → Bool) (s : String) : String :=
  ⟨s.data.takeWhile f⟩

/-- `includes(c)` over the character list. -/
def strContains (s : String) (c : Char) : Bool :=
  s.data.contains c

/-- The prefix that the children of directory `p` share (`"/"` stays `"/"`,
otherwise a slash is appended). -/
def dirSlash (p : String) : String :=
  if p = "/" then "/" else p ++ "/"

/-- Add to a JS `Set` modelled as a duplicate-free list: no-op when the
element is present, append otherwise (preserves insertion order). -/
def setAdd (l : List String) (x : String) : List String :=
  if x ∈ l then l else l ++ [x]

/-- Delete from a JS `Set` modelled as a list: drop every occurrence. -/
def setDelete (l : List String) (x : String) : List String :=
  l.filter (fun y => y ≠ x)

namespace FS

/-- The names a layer's `readdir p` reports: the first path segment of every
key lying strictly below `p`, deduplicated. -/
def childNames (fs : FS) (p : String) : List String :=
  fs.foldl
    (fun acc kv =>
      if strIsPre (dirSlash p) kv.1 then
        let rest := strDrop kv.1 (dirSlash p).length
        if rest = "" then acc else setAdd acc (strTakeWhile (fun c => c ≠ '/') rest)
      else acc)
    []

/-- A layer's own `readdir`: succeeds on a directory entry or on a path with
children, fails (`none`) otherwise. -/
def readdir (fs : FS) (p : String) : Option (List String) :=
  match fs.lookup p with
  | some .dir => some (fs.childNames p)
  | some _ => none
  | none =>
    let cs := fs.childNames p
    if cs = [] then none else some cs

end FS

/-- The single error the embedded operations surface; the overlay maps masked
and missing paths to `ENOENT`. -/
inductive FsError where
  | notFound
deriving DecidableEq, Repr

/-- The fixed delta-layer location of the persisted change manifest
(`MANIFEST_PATH` in `overlay-agentfs.ts`). -/
def MANIFEST_PATH : String := "/__zi_manifest.json"

/-- The mutable state of an `OverlayAgentFS` instance: its delta layer and the
two manifest bookkeeping sets, plus the base directory used to absolutize
relative paths.  The base (real-disk) view is passed separately to each
operation and is never returned, mirroring that the overlay only ever reads
the real disk. -/
structure State where
  delta : FS
  baseDir : String
  modifiedFiles : List String
  deletedFiles : List String
deriving DecidableEq, Repr

/-- A fresh overlay over an empty delta layer with empty manifest sets. -/
def initState (baseDir : String) : State :=
  { delta := [], baseDir := baseDir, modifiedFiles := [], deletedFiles := [] }

/-- `toAbsolute`: absolute paths pass through (`resolve` is the identity on
normalized absolute paths); relative paths are joined onto `baseDir`. -/
def toAbsolute (baseDir : String) (path : String) : String :=
  if strIsPre "/" path then path else baseDir ++ "/" ++ path

/-- `readFile`: tombstone check, then delta, then fall through to base. -/
def readFile (base : FS) (s : State) (path : String) : Except FsError String :=
  let p := toAbsolute s.baseDir path
  if p ∈ s.deletedFiles then .error .notFound
  else
    match s.delta.readFile p with
    | some c => .ok c
    | none =>
      match base.readFile p with
      | some c => .ok c
      | none => .error .notFound

/-- `stat`: tombstone check, then delta, then base.  (The distinction between
`stat` and `lstat` is symlink resolution, which the flat-map layer model does
not track.) -/
def stat (base : FS) (s : State) (path : String) : Except FsError Entry :=
  let p := toAbsolute s.baseDir path
  if p ∈ s.deletedFiles then .error .notFound
  else
    match s.delta.lookup p with
    | some e => .ok e
    | none =>
      match base.lookup p with
      | some e => .ok e
      | none => .error .notFound

/-- `lstat`: same delegation chain as `stat` in this model. -/
def lstat (base : FS) (s : State) (path : String) : Except FsError Entry :=
  stat base s path

/-- `access`: tombstone check, then existence in delta, falling back to base. -/
def access (base : FS) (s : State) (path : String) : Except FsError Unit :=
  let p := toAbsolute s.baseDir path
  if p ∈ s.deletedFiles then .error .notFound
  else
    match s.delta.lookup p with
    | some _ => .ok ()
    | none =>
      match base.lookup p with
      | some _ => .ok ()
      | none => .error .notFound

/-- `readlink`: tombstone check, then delta, then base. -/
def readlink (base : FS) (s : State) (path : String) : Except FsError String :=
  let p := toAbsolute s.baseDir path
  if p ∈ s.deletedFiles then .error .notFound
  else
    match s.delta.readLink p with
    | some t => .ok t
    | none =>
      match base.readLink p with
      | some t => .ok t
      | none => .error .notFound

/-- The deleted-children filter at the end of `readdir`/`readdirPlus`: for
every tombstoned path `d` that starts with `parent ++ "/"` and whose remainder
is a single segment, drop that name from the listing.  (Written exactly as the
source: for `parent = "/"` the probe string is `"//"`, so root-level
tombstones are never filtered.) -/
def filterDeleted (deleted : List String) (parent : String) (entries : List String) :
    List String :=
  deleted.foldl
    (fun acc d =>
      if strIsPre (parent ++ "/") d then
        let name := strDrop d (parent ++ "/").length
        if strContains name '/' then acc else setDelete acc name
      else acc)
    entries

/-- `readdir`: tombstone check, union of delta and base names, then the
deleted-children filter; fails only when both layers fail. -/
def readdir (base : FS) (s : State) (path : String) : Except FsError (List String) :=
  let p := toAbsolute s.baseDir path
  if p ∈ s.deletedFiles then .error .notFound
  else
    let deltaRes := s.delta.readdir p
    let baseRes := base.readdir p
    match deltaRes, baseRes with
    | none, none => .error .notFound
    | _, _ =>
      let entries := (baseRes.getD []).foldl setAdd ((deltaRes.getD []).foldl setAdd [])
      .ok (filterDeleted s.deletedFiles p entries)

/-- `writeFile`: clear any tombstone, mark modified, write to the delta layer
only. -/
def writeFile (s : State) (path : String) (content : String) : State :=
  let p := toAbsolute s.baseDir path
  { s with
    deletedFiles := setDelete s.deletedFiles p
    modifiedFiles := setAdd s.modifiedFiles p
    delta := s.delta.write p (.file content) }

/-- `mkdir`: delegates to the delta layer only; the manifest sets are not
touched by the source. -/
def mkdir (s : State) (path : String) : State :=
  { s with delta := s.delta.write (toAbsolute s.baseDir path) .dir }

/-- `symlink`: delegates to the delta layer only (the link target is stored
verbatim, only the link path is absolutized); the manifest sets are not
touched by the source. -/
def symlink (s : State) (target : String) (linkpath : String) : State :=
  { s with delta := s.delta.write (toAbsolute s.baseDir linkpath) (.link target) }

/-- `unlink`: tombstone the path and clear its modified-mark before
delegating; a delta-layer failure is swallowed, so the net delta effect is an
unconditional erase. -/
def unlink (s : State) (path : String) : State :=
  let p := toAbsolute s.baseDir path
  { s with
    deletedFiles := setAdd s.deletedFiles p
    modifiedFiles := setDelete s.modifiedFiles p
    delta := s.delta.erase p }

/-- `rmdir`: same tracking as `unlink`. -/
def rmdir (s : State) (path : String) : State :=
  let p := toAbsolute s.baseDir path
  { s with
    deletedFiles := setAdd s.deletedFiles p
    modifiedFiles := setDelete s.modifiedFiles p
    delta := s.delta.erase p }

/-- Erase a path and (for recursive `rm`) everything below it. -/
def FS.eraseTree (fs : FS) (p : String) : FS :=
  fs.filter (fun kv => kv.1 ≠ p ∧ strIsPre (dirSlash p) kv.1 = false)

/-- `rm`: same tracking as `unlink`; with `recursive` the delta delegation
removes the subtree. -/
def rm (s : State) (path : String) (recursive : Bool) : State :=
  let p := toAbsolute s.baseDir path
  { s with
    deletedFiles := setAdd s.deletedFiles p
    modifiedFiles := setDelete s.modifiedFiles p
    delta := if recursive then s.delta.eraseTree p else s.delta.erase p }

/-- `rename`: copy the source up from base into the delta at the old path when
the delta does not yet have it (failing when the base read fails), update all
four manifest marks, then delegate the rename to the delta layer. -/
def rename (base : FS) (s : State) (oldPath : String) (newPath : String) :
    Except FsError State :=
  let op := toAbsolute s.baseDir oldPath
  let np := toAbsolute s.baseDir newPath
  let copyUp : Except FsError FS :=
    match s.delta.lookup op with
    | some _ => .ok s.delta
    | none =>
      match base.readFile op with
      | some content => .ok (s.delta.write op (.file content))
      | none => .error .notFound
  copyUp.bind (fun d =>
    match d.lookup op with
    | some e =>
      .ok { s with
        modifiedFiles := setAdd (setDelete s.modifiedFiles op) np
        deletedFiles := setDelete (setAdd s.deletedFiles op) np
        delta := (d.erase op).write np e }
    | none => .error .notFound)

/-- `copyFile`: read from delta falling back to base, mark the destination
modified, write to the delta.  The source's tracking touches only the
modified set — the destination's tombstone, if any, is left in place. -/
def copyFile (base : FS) (s : State) (src : String) (dest : String) :
    Except FsError State :=
  let sp := toAbsolute s.baseDir src
  let dp := toAbsolute s.baseDir dest
  let content : Option String :=
    match s.delta.readFile sp with
    | some c => some c
    | none => base.readFile sp
  match content with
  | none => .error .notFound
  | some c =>
    .ok { s with
      modifiedFiles := setAdd s.modifiedFiles dp
      delta := s.delta.write dp (.file c) }

/-- `open`: when the delta lacks the path, copy the base content up first so a
handle never targets the base view; the manifest sets are not consulted or
updated.  Only the state effect is modelled (the returned handle is opaque). -/
def openFile (base : FS) (s : State) (path : String) : Except FsError State :=
  let p := toAbsolute s.baseDir path
  match s.delta.lookup p with
  | some _ => .ok s
  | none =>
    match base.readFile p with
    | some c => .ok { s with delta := s.delta.write p (.file c) }
    | none => .error .notFound

/-- Comma-join. -/
def joinComma : List String → String
  | [] => ""
  | [x] => x
  | x :: xs => x ++ "," ++ joinComma xs

/-- Render a JSON array of strings (quoting only; escaping inside path
strings is not modelled). -/
def jsonStringArray (l : List String) : String :=
  "[" ++ joinComma (l.map (fun x => "\"" ++ x ++ "\"")) ++ "]"

/-- The serialized manifest `JSON.stringify({modified, deleted})`. -/
def manifestJson (s : State) : String :=
  "\x7b\"modified\":" ++ jsonStringArray s.modifiedFiles ++
    ",\"deleted\":" ++ jsonStringArray s.deletedFiles ++ "\x7d"

/-- What `persistManifest` would write: nothing when both sets are empty,
otherwise the serialized manifest. -/
def manifestContent (s : State) : Option String :=
  if s.modifiedFiles = [] ∧ s.deletedFiles = [] then none
  else some (manifestJson s)

/-- `persistManifest`: no-op when both sets are empty, otherwise write the
serialized manifest to `MANIFEST_PATH` in the delta layer. -/
def persistManifest (s : State) : State :=
  match manifestContent s with
  | none => s
  | some c => { s with delta := s.delta.write MANIFEST_PATH (.file c) }

/-- `loadManifest`, modelled on the outcome of `readFile` + `JSON.parse`
(`none` = the read or the parse threw; both are caught by the same handler).
A bare array is the legacy modified-only format; on an object the two fields
are taken as stored with `?? []` defaulting for missing or `null` fields; on
any other parse result the property accesses yield `undefined` (or throw, for
`null`, landing in the catch), so both sets default to empty. -/
def nullishDefault : Option Json → Json
  | none => .arr []
  | some .null => .arr []
  | some j => j

/-- First binding of `key` in a parsed JSON object (JSON.parse keeps one
binding per key). -/
def jsonField (fields : List (String × Json)) (key : String) : Option Json :=
  (fields.find? (fun kv => kv.1 = key)).map (fun kv => kv.2)

/-- The `{modified, deleted}` pair `loadManifest` returns. -/
def loadManifest : Option Json → Json × Json
  | none => (.arr [], .arr [])
  | some (.arr xs) => (.arr xs, .arr [])
  | some (.obj fields) =>
    (nullishDefault (jsonField fields "modified"),
     nullishDefault (jsonField fields "deleted"))
  | some _ => (.arr [], .arr [])

/-- The overlay's full mutating surface, for stating invariants over
arbitrary operation sequences. -/
inductive Op where
  | writeFile (path content : String)
  | mkdir (path : String)
  | symlink (target linkpath : String)
  | unlink (path : String)
  | rmdir (path : String)
  | rm (path : String) (recursive : Bool)
  | rename (oldPath newPath : String)
  | copyFile (src dest : String)
  | openFile (path : String)
deriving DecidableEq, Repr

/-- Whether an operation is a `copyFile`. -/
def Op.isCopy : Op → Bool
  | .copyFile _ _ => true
  | _ => false

/-- Run one operation; a failing operation leaves the state unchanged (its
manifest updates, when any, happen only on the success path of the model). -/
def applyOp (base : FS) (s : State) : Op → State
  | .writeFile p c => writeFile s p c
  | .mkdir p => mkdir s p
  | .symlink t l => symlink s t l
  | .unlink p => unlink s p
  | .rmdir p => rmdir s p
  | .rm p r => rm s p r
  | .rename a b =>
    match rename base s a b with
    | .ok s' => s'
    | .error _ => s
  | .copyFile a b =>
    match copyFile base s a b with
    | .ok s' => s'
    | .error _ => s
  | .openFile p =>
    match openFile base s p with
    | .ok s' => s'
    | .error _ => s

/-- Run a sequence of operations from a given state. -/
def runOps (base : FS) (init : State) (ops : List Op) : State :=
  ops.foldl (applyOp base) init

/-- The spec's manifest invariant: no path is marked both modified and
deleted. -/
def DisjointSets (s : State) : Prop :=
  ∀ p, p ∈ s.modifiedFiles → p ∉ s.deletedFiles

instance : DecidablePred DisjointSets := fun s =>
  decidable_of_iff (∀ p ∈ s.modifiedFiles, p ∉ s.deletedFiles) Iff.rfl

/-- The name list a successful `readdir` produced (empty on error), for
stating listing membership. -/
def namesOf : Except FsError (List String) → List String
  | .ok l => l
  | .error _ => []

end Overlay

namespace Session

/-- Message roles (`"user" | "assistant" | "tool"`). -/
inductive Role where
  | user
  | assistant
  | tool
deriving DecidableEq, Repr

/-- The two `ContentBlock.type` values. -/
inductive BlockType where
  | text
  | image
deriving DecidableEq, Repr

/-- A content block of a structured message (`session-types.ts`). -/
structure ContentBlock where
  type : BlockType
  text : Option String
  image : Option String
  mimeType : Option String
deriving Repr

/-- `MessageEntry.content`: a plain string or a list of blocks. -/
inductive MsgContent where
  | str (s : String)
  | blocks (bs : List ContentBlock)

/-- A recorded tool invocation.  `invState` carries the source's
`state: "partial" | "call" | "result"` tag verbatim; no embedded operation
reads it.  An absent `result` is `none`. -/
structure ToolInvocation where
  toolCallId : String
  toolName : String
  args : Json
  invState : String
  result : Option Json

/-- The payload of a session entry.  A message's optional `toolInvocations`
is flattened to a plain list (the source only ever tests
`toolInvocations?.length`, which conflates absent and empty). -/
inductive EntryKind where
  | message (role : Role) (content : MsgContent) (toolInvocations : List ToolInvocation)
      (provider : Option String) (model : Option String)
  | modelChange (provider : String) (modelId : String)
  | compaction (summary : String) (firstKeptEntryId : String) (tokensBefore : Nat)

/-- A non-header session entry: unique id, parent pointer, timestamp,
payload. -/
structure Entry where
  id : String
  parentId : Option String
  timestamp : Nat
  kind : EntryKind

/-- The `SessionManager` state the history claims depend on: the non-header
entries of `fileEntries` in append order, plus the leaf cursor.  The `byId`
map is recovered by lookup (a JS `Map` built by inserting each entry once,
keyed by id, iterates in this same order). -/
structure SessionState where
  entries : List Entry
  leafId : Option String

/-- Errors surfaced by the history operations (`branch` on an unknown id). -/
inductive SessionError where
  | entryNotFound
deriving DecidableEq, Repr

/-- The ids present in the index. -/
def idsOf (l : List Entry) : List String := l.map (fun e => e.id)

/-- `byId.get`: the entry with the given id (first match; ids are unique in
well-formed states). -/
def findEntry (l : List Entry) (id : String) : Option Entry :=
  l.find? (fun e => e.id = id)

/-- `_appendEntry`: push onto the log, index, and move the leaf. -/
def appendEntry (s : SessionState) (e : Entry) : SessionState :=
  { entries := s.entries ++ [e], leafId := some e.id }

/-- `appendMessage`.  `newId` stands for the freshly generated random id;
theorems assume it is not already in use, which is what `generateId`'s
retry loop establishes (up to the bounded-retry fallback). -/
def appendMessage (s : SessionState) (newId : String) (ts : Nat) (role : Role)
    (content : MsgContent) (invs : List ToolInvocation)
    (provider : Option String) (model : Option String) : SessionState × String :=
  let e : Entry :=
    { id := newId, parentId := s.leafId, timestamp := ts
      kind := .message role content invs provider model }
  (appendEntry s e, newId)

/-- `appendModelChange`. -/
def appendModelChange (s : SessionState) (newId : String) (ts : Nat)
    (provider : String) (modelId : String) : SessionState × String :=
  let e : Entry :=
    { id := newId, parentId := s.leafId, timestamp := ts
      kind := .modelChange provider modelId }
  (appendEntry s e, newId)

/-- `branch`: move the leaf to an existing entry, failing on an unknown id;
the log is untouched. -/
def branch (s : SessionState) (branchFromId : String) : Except SessionError SessionState :=
  if s.entries.any (fun e => e.id = branchFromId) then
    .ok { s with leafId := some branchFromId }
  else
    .error .entryNotFound

/-- `resetLeaf`. -/
def resetLeaf (s : SessionState) : SessionState :=
  { s with leafId := none }

/-- Stable insertion by ascending timestamp (equal timestamps keep index
order, as the source's comparator-based stable sort does). -/
def insertByTs (e : Entry) : List Entry → List Entry
  | [] => [e]
  | x :: xs => if e.timestamp < x.timestamp then e :: x :: xs else x :: insertByTs e xs

/-- Stable sort by ascending timestamp. -/
def sortByTimestamp (l : List Entry) : List Entry :=
  l.foldr insertByTs []

/-- `getChildren`: linear scan of the index for matching parent, sorted by
timestamp ascending. -/
def getChildren (s : SessionState) (parentId : String) : List Entry :=
  sortByTimestamp (s.entries.filter (fun e => e.parentId = some parentId))

/-- The parent-pointer walk of `getBranch`, fuel-bounded.  On the acyclic
states the history operations produce, `entries.length` steps always
suffice, so the bounded walk agrees with the source's unbounded loop. -/
def chainTo (l : List Entry) : Nat → Option String → List Entry
  | 0, _ => []
  | _ + 1, none => []
  | fuel + 1, some i =>
    match findEntry l i with
    | none => []
    | some e => chainTo l fuel e.parentId ++ [e]

/-- `getBranch(fromId?)`: walk parent pointers from `fromId` (defaulting to
the leaf) back to a null parent, returned root-first. -/
def getBranch (s : SessionState) (fromId : Option String) : List Entry :=
  let startId :=
    match fromId with
    | some i => some i
    | none => s.leafId
  chainTo s.entries s.entries.length startId

/-- An active model selection. -/
structure ActiveModel where
  provider : String
  modelId : String
deriving DecidableEq, Repr

/-- JavaScript string truthiness for optional tags: present and non-empty. -/
def strTruthy : Option String → Bool
  | none => false
  | some s => s ≠ ""

/-- The model tag one entry contributes in `buildSessionContext`'s first
loop: every `model_change`, and every assistant message whose `provider` and
`model` are both truthy. -/
def entryModelTag (e : Entry) : Option ActiveModel :=
  match e.kind with
  | .modelChange p m => some ⟨p, m⟩
  | .message role _ _ provider model =>
    if role = .assistant ∧ strTruthy provider ∧ strTruthy model then
      some ⟨provider.getD "", model.getD ""⟩
    else
      none
  | .compaction _ _ _ => none

/-- `buildSessionContext`'s model fold: last tag along the path wins. -/
def foldModel (path : List Entry) : Option ActiveModel :=
  path.foldl
    (fun acc e =>
      match entryModelTag e with
      | some m => some m
      | none => acc)
    none

/-- A part of a provider-ready message (`entryToMessage`'s output shapes). -/
inductive MsgPart where
  | text (text : String)
  | toolCall (toolCallId : String) (toolName : String) (input : Json)
  | toolResult (toolCallId : String) (toolName : String)
      (output : Option Json)
  | image (image : String) (mimeType : String)

/-- A provider-ready message: either a `{role, content: string}` value or a
role with structured parts. -/
inductive ProviderMessage where
  | plain (role : Role) (content : String)
  | parts (role : Role) (parts : List MsgPart)

/-- `textContent` extraction for assistant messages with tool calls:
the content itself when it is a string, else `content?.[0]?.text`. -/
def textContentOf : MsgContent → Option String
  | .str s => some s
  | .blocks bs => bs.head?.bind (fun b => b.text)

/-- `toToolOutput`: every representable result serializes, so the
`{type:"json"}` branch is always taken (the catch branch needs a circular
structure, which `Json` cannot express). -/
def toToolOutput (result : Option Json) : Option Json := result

/-- `entryToMessage`. -/
def entryToMessage (role : Role) (content : MsgContent)
    (invs : List ToolInvocation) : ProviderMessage :=
  if role = .assistant ∧ invs.isEmpty = false then
    let textPart : List MsgPart :=
      match textContentOf content with
      | some t => if t ≠ "" then [.text t] else []
      | none => []
    .parts .assistant
      (textPart ++ invs.map (fun inv => .toolCall inv.toolCallId inv.toolName inv.args))
  else if role = .tool ∧ invs.isEmpty = false then
    .parts .tool
      (invs.map (fun inv =>
        .toolResult inv.toolCallId inv.toolName (toToolOutput inv.result)))
  else
    match content with
    | .str s => .plain role s
    | .blocks bs =>
      .parts role
        (bs.map (fun b =>
          match b.type with
          | .text => .text (b.text.getD "")
          | .image => .image (b.image.getD "") (b.mimeType.getD "image/png")))

/-- The value `buildSessionContext` returns. -/
structure SessionContext where
  messages : List ProviderMessage
  model : Option ActiveModel

/-- `buildSessionContext`: fold the active model over the current branch,
then convert its message entries. -/
def buildSessionContext (s : SessionState) : SessionContext :=
  let path := getBranch s none
  { messages :=
      path.filterMap (fun e =>
        match e.kind with
        | .message r c i _ _ => some (entryToMessage r c i)
        | _ => none)
    model := foldModel path }

/-- The spec's wording for the active model, stated independently of the
fold: the most recent entry on the path that carries a model tag (a
`model_change`, or an assistant message tagged with provider and model). -/
def specMostRecentModel (path : List Entry) : Option ActiveModel :=
  (path.filter (fun e => (entryModelTag e).isSome)).getLast?.bind entryModelTag

/-- Parent pointers stay inside the index: what append-only growth with
existing-leaf parents guarantees. -/
def ParentsClosed (l : List Entry) : Prop :=
  ∀ e ∈ l, ∀ p, e.parentId = some p → p ∈ idsOf l

/-- Well-formed history: ids are unique and every parent pointer resolves to
a strictly earlier entry of the log (the forest invariant; append order is
topological). -/
def WF (l : List Entry) : Prop :=
  (idsOf l).Nodup ∧
    ∀ i : Fin l.length,
      (l.get i).parentId = none ∨
        ∃ j : Fin l.length, j.val < i.val ∧ some (l.get j).id = (l.get i).parentId

instance : DecidablePred WF := fun l => by
  unfold WF
  infer_instance

end Session

namespace Apply

/-!
The `applySession` workflow of the CLI subcommand module, after
`openSessionForApply` has loaded the session: the delta layer is read through
`deltaFs.readFile`, the real disk through `existsSync` /
`fs.writeFile` / `fs.unlink`.  The real disk is modelled as a finite map from
file paths to contents (the `mkdir -p` of missing parent directories performed
before each write has no observable effect on these file-level maps and is
not tracked).  `Buffer.length` byte counts are modelled as content length.
-/

/-- The real filesystem's regular files. -/
abbrev RealFS := List (String × String)

/-- `existsSync` on a file path. -/
def existsSync (fs : RealFS) (p : String) : Bool :=
  fs.any (fun kv => kv.1 = p)

/-- Write (create or replace) a real file. -/
def writeReal (fs : RealFS) (p : String) (c : String) : RealFS :=
  if fs.any (fun kv => kv.1 = p) then
    fs.map (fun kv => if kv.1 = p then (p, c) else kv)
  else
    fs ++ [(p, c)]

/-- `unlinkSync`-style removal of a real file. -/
def eraseReal (fs : RealFS) (p : String) : RealFS :=
  fs.filter (fun kv => kv.1 ≠ p)

/-- The delta layer as seen by apply: path to content bytes. -/
abbrev DeltaFS := List (String × String)

/-- `deltaFs.readFile`. -/
def deltaRead (delta : DeltaFS) (p : String) : Option String :=
  (delta.find? (fun kv => kv.1 = p)).map (fun kv => kv.2)

/-- Apply-time failure: a modified path missing from the delta layer makes
`deltaFs.readFile` throw, aborting the workflow (fail-fast). -/
inductive ApplyError where
  | notFound
deriving DecidableEq, Repr

/-- The status letter printed for a modified path. -/
inductive Status where
  | A
  | M
deriving DecidableEq, Repr

/-- A preview line for a modified path: path, status letter, byte count. -/
structure PreviewLine where
  path : String
  status : Status
  bytes : Nat
deriving DecidableEq, Repr

/-- The preview loop over the modified paths: `A` when the path is absent
from the real filesystem, `M` otherwise, with the delta content's byte
count; a missing delta entry aborts. -/
def previewModified (real : RealFS) (delta : DeltaFS) :
    List String → Except ApplyError (List PreviewLine)
  | [] => .ok []
  | p :: rest =>
    match deltaRead delta p with
    | none => .error .notFound
    | some c =>
      (previewModified real delta rest).map
        (fun l => ⟨p, if existsSync real p then .M else .A, c.length⟩ :: l)

/-- The preview loop over the deleted paths: a path is reported (printed with
status `D`) only when the real filesystem still has it. -/
def previewDeleted (real : RealFS) : List String → List String
  | [] => []
  | p :: rest =>
    if existsSync real p then p :: previewDeleted real rest
    else previewDeleted real rest

/-- The post-confirmation write loop: write every modified path's delta
content to the real path, counting each write. -/
def applyModifiedLoop (delta : DeltaFS) :
    RealFS → List String → Except ApplyError (RealFS × Nat)
  | real, [] => .ok (real, 0)
  | real, p :: rest =>
    match deltaRead delta p with
    | none => .error .notFound
    | some c =>
      (applyModifiedLoop delta (writeReal real p c) rest).map
        (fun rn => (rn.1, rn.2 + 1))

/-- The post-confirmation delete loop: remove each deleted path still present
on disk, counting each removal. -/
def applyDeletedLoop : RealFS → List String → RealFS × Nat
  | real, [] => (real, 0)
  | real, p :: rest =>
    if existsSync real p then
      let rn := applyDeletedLoop (eraseReal real p) rest
      (rn.1, rn.2 + 1)
    else
      applyDeletedLoop real rest

/-- The whole post-confirmation phase: writes, then deletions, with the
applied counter threaded through both loops. -/
def applyChanges (delta : DeltaFS) (real : RealFS)
    (modifiedFiles deletedFiles : List String) : Except ApplyError (RealFS × Nat) :=
  (applyModifiedLoop delta real modifiedFiles).bind (fun rn =>
    let dn := applyDeletedLoop rn.1 deletedFiles
    .ok (dn.1, rn.2 + dn.2))

end Apply

end Zi

/-! ## Lemmas and theorems -/

namespace Zi.Overlay

theorem mem_setAdd {l : List String} {x y : String} :
    y ∈ setAdd l x ↔ y ∈ l ∨ y = x := by
  unfold setAdd
  by_cases h : x ∈ l
  · simp only [if_pos h]
    exact ⟨Or.inl, fun hc => hc.elim id (fun hyx => hyx ▸ h)⟩
  · simp [if_neg h, List.mem_append]

theorem mem_setDelete {l : List String} {x y : String} :
    y ∈ setDelete l x ↔ y ∈ l ∧ y ≠ x := by
  simp [setDelete, List.mem_filter]

/-- The manifest bookkeeping a successful `rename` performs. -/
theorem rename_ok_sets {base : FS} {s : State} {a b : String} {s' : State}
    (h : rename base s a b = .ok s') :
    s'.modifiedFiles =
        setAdd (setDelete s.modifiedFiles (toAbsolute s.baseDir a)) (toAbsolute s.baseDir b) ∧
      s'.deletedFiles =
        setDelete (setAdd s.deletedFiles (toAbsolute s.baseDir a)) (toAbsolute s.baseDir b) ∧
      s'.baseDir = s.baseDir := by
  unfold rename at h
  simp only [Except.bind] at h
  repeat' split at h
  all_goals (try (cases h))
  all_goals exact ⟨rfl, rfl, rfl⟩

/-- The manifest bookkeeping a successful `copyFile` performs: the
destination is marked modified; the deleted set is untouched. -/
theorem copyFile_ok_sets {base : FS} {s : State} {a b : String} {s' : State}
    (h : copyFile base s a b = .ok s') :
    s'.modifiedFiles = setAdd s.modifiedFiles (toAbsolute s.baseDir b) ∧
      s'.deletedFiles = s.deletedFiles ∧ s'.baseDir = s.baseDir := by
  unfold copyFile at h
  dsimp only at h
  repeat' split at h
  all_goals (try (cases h))
  all_goals exact ⟨rfl, rfl, rfl⟩

/-- A successful `open` never changes the manifest sets (nor, a fortiori,
what `persistManifest` would write). -/
theorem openFile_ok_sets {base : FS} {s : State} {p : String} {s' : State}
    (h : openFile base s p = .ok s') :
    s'.modifiedFiles = s.modifiedFiles ∧ s'.deletedFiles = s.deletedFiles ∧
      s'.baseDir = s.baseDir := by
  unfold openFile at h
  dsimp only at h
  repeat' split at h
  all_goals (try (cases h))
  all_goals exact ⟨rfl, rfl, rfl⟩

/-- One non-`copyFile` operation preserves disjointness of the manifest
sets. -/
theorem applyOp_preserves_disjoint (base : FS) (s : State) (o : Op)
    (ho : o.isCopy = false) (hs : DisjointSets s) :
    DisjointSets (applyOp base s o) := by
  cases o with
  | writeFile p c =>
    intro q hq
    simp only [applyOp, writeFile] at hq ⊢
    rcases mem_setAdd.mp hq with hqm | hqe
    · intro hqd
      exact hs q hqm (mem_setDelete.mp hqd).1
    · intro hqd
      exact (mem_setDelete.mp hqd).2 hqe
  | mkdir p =>
    intro q hq
    simpa only [applyOp, mkdir] using hs q hq
  | symlink t l =>
    intro q hq
    simpa only [applyOp, symlink] using hs q hq
  | unlink p =>
    intro q hq
    simp only [applyOp, unlink] at hq ⊢
    intro hqd
    rcases mem_setAdd.mp hqd with hqd' | hqe
    · exact hs q (mem_setDelete.mp hq).1 hqd'
    · exact (mem_setDelete.mp hq).2 hqe
  | rmdir p =>
    intro q hq
    simp only [applyOp, rmdir] at hq ⊢
    intro hqd
    rcases mem_setAdd.mp hqd with hqd' | hqe
    · exact hs q (mem_setDelete.mp hq).1 hqd'
    · exact (mem_setDelete.mp hq).2 hqe
  | rm p r =>
    intro q hq
    simp only [applyOp, rm] at hq ⊢
    intro hqd
    rcases mem_setAdd.mp hqd with hqd' | hqe
    · exact hs q (mem_setDelete.mp hq).1 hqd'
    · exact (mem_setDelete.mp hq).2 hqe
  | rename a b =>
    simp only [applyOp]
    cases hr : rename base s a b with
    | error e => exact hs
    | ok s' =>
      obtain ⟨hm, hd, _⟩ := rename_ok_sets hr
      intro q hq hqd
      rw [hm] at hq
      rw [hd] at hqd
      obtain ⟨hq1, hq2⟩ := mem_setDelete.mp hqd
      rcases mem_setAdd.mp hq with hq' | hqb
      · obtain ⟨hqm, hqa⟩ := mem_setDelete.mp hq'
        rcases mem_setAdd.mp hq1 with hqd' | hqa'
        · exact hs q hqm hqd'
        · exact hqa hqa'
      · exact hq2 hqb
  | copyFile a b => simp [Op.isCopy] at ho
  | openFile p =>
    simp only [applyOp]
    cases hr : openFile base s p with
    | error e => exact hs
    | ok s' =>
      obtain ⟨hm, hd, _⟩ := openFile_ok_sets hr
      intro q hq
      rw [hm] at hq
      rw [hd]
      exact hs q hq

/-- Disjointness is preserved along any `copyFile`-free run, from any
disjoint starting state. -/
theorem runOps_preserves_disjoint (base : FS) (ops : List Op) :
    ∀ s : State, DisjointSets s → (∀ o ∈ ops, o.isCopy = false) →
      DisjointSets (runOps base s ops) := by
  induction ops with
  | nil => exact fun s hs _ => hs
  | cons o rest ih =>
    intro s hs h
    have hstep := applyOp_preserves_disjoint base s o (h o (List.mem_cons_self o rest)) hs
    exact ih (applyOp base s o) hstep (fun o' ho' => h o' (List.mem_cons_of_mem o ho'))

/-- C1 (amended): over the mutating surface minus `copyFile`, the modified
and deleted sets stay disjoint starting from an empty manifest (every write
that does clear tombstones — `writeFile`, `rename` — clears the destination's
tombstone before marking it modified; `copyFile` alone omits the clearing and
is excluded). -/
theorem manifest_sets_disjoint_without_copy (base : FS) (baseDir : String)
    (ops : List Op) (h : ∀ o ∈ ops, o.isCopy = false) :
    DisjointSets (runOps base (initState baseDir) ops) := by
  have hinit : DisjointSets (initState baseDir) := by
    intro q hq
    simp [initState] at hq
  exact runOps_preserves_disjoint base ops (initState baseDir) hinit h

/-- C1 witness: a concrete `copyFile`-free run keeps the sets disjoint. -/
theorem manifest_sets_disjoint_without_copy_witness :
    (∀ o ∈ [Op.writeFile "/a" "1", Op.unlink "/a", Op.rename "/s" "/b"],
        o.isCopy = false) ∧
      DisjointSets (runOps [("/s", .file "x")] (initState "/w")
        [Op.writeFile "/a" "1", Op.unlink "/a", Op.rename "/s" "/b"]) :=
  ⟨by decide,
    manifest_sets_disjoint_without_copy [("/s", .file "x")] "/w"
      [Op.writeFile "/a" "1", Op.unlink "/a", Op.rename "/s" "/b"] (by decide)⟩

/-- C1 counterexample: `copyFile` onto a tombstoned destination leaves the
path in both sets, so the claimed invariant fails as stated — `copyFile`
writes content to its destination but does not remove the tombstone. -/
theorem copyFile_breaks_disjoint_cex :
    ¬ DisjointSets (runOps [("/s", .file "x")] (initState "/w")
      [Op.unlink "/d", Op.copyFile "/s" "/d"]) := by
  decide

/-- C2: after `unlink(p)`, every read operation on `p` fails with `NotFound`
no matter what the delta or the base view holds for `p` (the tombstone is
checked first), and `p`'s absolute form is not in the modified set. -/
theorem unlink_masks_all_reads (base : FS) (s : State) (path : String) :
    readFile base (unlink s path) path = .error .notFound ∧
      stat base (unlink s path) path = .error .notFound ∧
      lstat base (unlink s path) path = .error .notFound ∧
      access base (unlink s path) path = .error .notFound ∧
      readlink base (unlink s path) path = .error .notFound ∧
      toAbsolute s.baseDir path ∉ (unlink s path).modifiedFiles := by
  have hbd : (unlink s path).baseDir = s.baseDir := rfl
  have hp : toAbsolute s.baseDir path ∈ (unlink s path).deletedFiles := by
    simp only [unlink]
    exact mem_setAdd.mpr (Or.inr rfl)
  refine ⟨?_, ?_, ?_, ?_, ?_, ?_⟩
  · simp only [readFile, hbd, if_pos hp]
  · simp only [stat, hbd, if_pos hp]
  · simp only [lstat, stat, hbd, if_pos hp]
  · simp only [access, hbd, if_pos hp]
  · simp only [readlink, hbd, if_pos hp]
  · simp only [unlink]
    intro hmem
    exact (mem_setDelete.mp hmem).2 rfl

/-- C3 counterexample: `mkdir` (and `symlink`) succeed without marking the
path modified — `mkdir "/d"` on a fresh overlay leaves the modified set
empty, and `symlink` onto a tombstoned path leaves the tombstone in
place. -/
theorem mkdir_symlink_skip_manifest_cex :
    "/d" ∉ (mkdir (initState "/w") "/d").modifiedFiles ∧
      "/f" ∈ (symlink (unlink (initState "/w") "/f") "/t" "/f").deletedFiles ∧
      "/f" ∉ (symlink (unlink (initState "/w") "/f") "/t" "/f").modifiedFiles := by
  refine ⟨?_, ?_, ?_⟩ <;> decide

/-- C3 (amended): `writeFile`, `mkdir` and `symlink` all write only to the
delta layer (none of the three takes the base view at all), but only
`writeFile` updates the manifest bookkeeping — it removes the path's
tombstone and adds it to the modified set — while `mkdir` and `symlink`
leave both manifest sets unchanged. -/
theorem write_ops_delta_only (s : State) (p c t lp : String) :
    (toAbsolute s.baseDir p ∈ (writeFile s p c).modifiedFiles ∧
        toAbsolute s.baseDir p ∉ (writeFile s p c).deletedFiles ∧
        (writeFile s p c).delta = s.delta.write (toAbsolute s.baseDir p) (.file c)) ∧
      ((mkdir s p).modifiedFiles = s.modifiedFiles ∧
        (mkdir s p).deletedFiles = s.deletedFiles ∧
        (mkdir s p).delta = s.delta.write (toAbsolute s.baseDir p) .dir) ∧
      ((symlink s t lp).modifiedFiles = s.modifiedFiles ∧
        (symlink s t lp).deletedFiles = s.deletedFiles ∧
        (symlink s t lp).delta = s.delta.write (toAbsolute s.baseDir lp) (.link t)) := by
  refine ⟨⟨?_, ?_, rfl⟩, ⟨rfl, rfl, rfl⟩, ⟨rfl, rfl, rfl⟩⟩
  · exact mem_setAdd.mpr (Or.inr rfl)
  · intro hmem
    exact (mem_setDelete.mp hmem).2 rfl

theorem FS.find?_map_replace (fs : FS) (p : String) (e : Entry) :
    (fs.map (fun kv => if kv.1 = p then (p, e) else kv)).find? (fun kv => kv.1 = p) =
      if fs.any (fun kv => kv.1 = p) then some (p, e) else none := by
  induction fs with
  | nil => simp
  | cons kv rest ih =>
    by_cases hkv : kv.1 = p
    · simp [hkv, List.find?_cons_of_pos]
    · simp only [List.map, List.any_cons, if_neg hkv]
      rw [List.find?_cons_of_neg _ (by simpa using hkv), ih]
      have hd : decide (kv.1 = p) = false := by simpa using hkv
      simp only [hd, Bool.false_or]

theorem FS.lookup_write_self (fs : FS) (p : String) (e : Entry) :
    (FS.write fs p e).lookup p = some e := by
  unfold FS.write FS.lookup
  by_cases h : fs.any (fun kv => kv.1 = p)
  · rw [if_pos h, FS.find?_map_replace, if_pos h]
    rfl
  · rw [if_neg h, List.find?_append]
    have hnone : fs.find? (fun kv => kv.1 = p) = none := by
      rw [List.find?_eq_none]
      intro kv hkv hp
      exact h (List.any_eq_true.mpr ⟨kv, hkv, hp⟩)
    rw [hnone]
    simp [List.find?_cons_of_pos]

theorem FS.find?_map_replace_ne (fs : FS) (p q : String) (e : Entry) (h : q ≠ p) :
    (fs.map (fun kv => if kv.1 = p then (p, e) else kv)).find? (fun kv => kv.1 = q) =
      fs.find? (fun kv => kv.1 = q) := by
  induction fs with
  | nil => simp
  | cons kv rest ih =>
    by_cases hkv : kv.1 = p
    · have h1 : ¬ ((p, e) : String × Entry).1 = q := fun hpq => h hpq.symm
      have h2 : ¬ kv.1 = q := by
        intro hq
        exact h (hq ▸ hkv ▸ rfl)
      simp only [List.map, if_pos hkv]
      rw [List.find?_cons_of_neg _ (by simpa using h1),
        List.find?_cons_of_neg _ (by simpa using h2), ih]
    · simp only [List.map, if_neg hkv]
      by_cases hq : kv.1 = q
      · rw [List.find?_cons_of_pos _ (by simpa using hq),
          List.find?_cons_of_pos _ (by simpa using hq)]
      · rw [List.find?_cons_of_neg _ (by simpa using hq),
          List.find?_cons_of_neg _ (by simpa using hq), ih]

theorem FS.lookup_write_ne (fs : FS) (p q : String) (e : Entry) (h : q ≠ p) :
    (FS.write fs p e).lookup q = fs.lookup q := by
  unfold FS.write FS.lookup
  by_cases hany : fs.any (fun kv => kv.1 = p)
  · rw [if_pos hany, FS.find?_map_replace_ne fs p q e h]
  · rw [if_neg hany, List.find?_append]
    have hpq : ¬ (((p, e) : String × Entry).1 = q) := fun hpq => h hpq.symm
    have hlast : List.find? (fun kv => kv.1 = q) [(p, e)] = none := by
      simp [hpq]
    rw [hlast]
    cases fs.find? (fun kv => kv.1 = q) <;> rfl

/-- C4: renaming a path that so far exists only in the base view copies the
content up and moves it: afterwards the overlay reads the original content
at the new path, the old path is tombstoned and unmarked, and the new path
is marked modified and untombstoned. -/
theorem rename_base_only_file (base : FS) (s : State) (oldPath newPath c : String)
    (h1 : s.delta.lookup (toAbsolute s.baseDir oldPath) = none)
    (h2 : FS.readFile base (toAbsolute s.baseDir oldPath) = some c)
    (h3 : toAbsolute s.baseDir oldPath ≠ toAbsolute s.baseDir newPath) :
    ∃ s', rename base s oldPath newPath = .ok s' ∧
      readFile base s' newPath = .ok c ∧
      toAbsolute s.baseDir oldPath ∈ s'.deletedFiles ∧
      toAbsolute s.baseDir oldPath ∉ s'.modifiedFiles ∧
      toAbsolute s.baseDir newPath ∈ s'.modifiedFiles ∧
      toAbsolute s.baseDir newPath ∉ s'.deletedFiles := by
  have hlk := FS.lookup_write_self s.delta (toAbsolute s.baseDir oldPath) (.file c)
  refine
    ⟨{ s with
        modifiedFiles :=
          setAdd (setDelete s.modifiedFiles (toAbsolute s.baseDir oldPath))
            (toAbsolute s.baseDir newPath)
        deletedFiles :=
          setDelete (setAdd s.deletedFiles (toAbsolute s.baseDir oldPath))
            (toAbsolute s.baseDir newPath)
        delta :=
          ((s.delta.write (toAbsolute s.baseDir oldPath) (.file c)).erase
              (toAbsolute s.baseDir oldPath)).write
            (toAbsolute s.baseDir newPath) (.file c) },
      ?_, ?_, ?_, ?_, ?_, ?_⟩
  · unfold rename
    simp only [h1, h2, Except.bind, hlk]
  · simp only [readFile]
    rw [if_neg ?hdel]
    case hdel =>
      intro hmem
      exact (mem_setDelete.mp hmem).2 rfl
    have hrd : (((s.delta.write (toAbsolute s.baseDir oldPath) (.file c)).erase
        (toAbsolute s.baseDir oldPath)).write
          (toAbsolute s.baseDir newPath) (.file c)).readFile
            (toAbsolute s.baseDir newPath) = some c := by
      unfold FS.readFile
      rw [FS.lookup_write_self]
    rw [hrd]
  · exact mem_setDelete.mpr ⟨mem_setAdd.mpr (Or.inr rfl), h3⟩
  · intro hmem
    rcases mem_setAdd.mp hmem with hm | he
    · exact (mem_setDelete.mp hm).2 rfl
    · exact h3 he
  · exact mem_setAdd.mpr (Or.inr rfl)
  · intro hmem
    exact (mem_setDelete.mp hmem).2 rfl

/-- C4 witness: renaming a base-only file on a fresh overlay. -/
theorem rename_base_only_file_witness :
    FS.lookup (initState "/w").delta (toAbsolute "/w" "/a") = none ∧
      FS.readFile [("/a", Entry.file "x")] (toAbsolute "/w" "/a") = some "x" ∧
      toAbsolute "/w" "/a" ≠ toAbsolute "/w" "/b" ∧
      (∃ s', rename [("/a", Entry.file "x")] (initState "/w") "/a" "/b" = .ok s' ∧
        readFile [("/a", Entry.file "x")] s' "/b" = .ok "x" ∧
        toAbsolute "/w" "/a" ∈ s'.deletedFiles ∧
        toAbsolute "/w" "/a" ∉ s'.modifiedFiles ∧
        toAbsolute "/w" "/b" ∈ s'.modifiedFiles ∧
        toAbsolute "/w" "/b" ∉ s'.deletedFiles) :=
  ⟨by decide, by decide, by decide,
    rename_base_only_file [("/a", Entry.file "x")] (initState "/w") "/a" "/b" "x"
      (by decide) (by decide) (by decide)⟩

/-- C5: `loadManifest` accepts the legacy bare-array format as
modified-only, returns the stored arrays from the object format, and fails
open to empty sets when the read or the parse failed. -/
theorem loadManifest_formats (xs m d : List Json) (fields : List (String × Json))
    (hm : jsonField fields "modified" = some (.arr m))
    (hd : jsonField fields "deleted" = some (.arr d)) :
    loadManifest (some (.arr xs)) = (.arr xs, .arr []) ∧
      loadManifest (some (.obj fields)) = (.arr m, .arr d) ∧
      loadManifest none = (.arr [], .arr []) := by
  refine ⟨rfl, ?_, rfl⟩
  simp only [loadManifest, hm, hd]
  rfl

/-- C5 witness: a stored object manifest with both arrays present. -/
theorem loadManifest_formats_witness :
    jsonField [("modified", .arr [.str "/a"]), ("deleted", .arr [.str "/b"])]
        "modified" = some (.arr [.str "/a"]) ∧
      jsonField [("modified", .arr [.str "/a"]), ("deleted", .arr [.str "/b"])]
        "deleted" = some (.arr [.str "/b"]) ∧
      (loadManifest (some (.arr [Json.str "/x"])) = (.arr [Json.str "/x"], .arr []) ∧
        loadManifest (some (.obj [("modified", .arr [.str "/a"]),
          ("deleted", .arr [.str "/b"])])) = (.arr [.str "/a"], .arr [.str "/b"]) ∧
        loadManifest none = (.arr [], .arr [])) :=
  ⟨rfl, rfl,
    loadManifest_formats [Json.str "/x"] [Json.str "/a"] [Json.str "/b"]
      [("modified", .arr [.str "/a"]), ("deleted", .arr [.str "/b"])] rfl rfl⟩

/-- C10: `open` never touches the manifest bookkeeping — also on its
copy-up path — so content later mutated through the returned handle is
absent from what `persistManifest` writes. -/
theorem openFile_preserves_manifest (base : FS) (s : State) (path : String) :
    ∀ s', openFile base s path = .ok s' →
      s'.modifiedFiles = s.modifiedFiles ∧ s'.deletedFiles = s.deletedFiles ∧
        manifestContent s' = manifestContent s := by
  intro s' h
  obtain ⟨hm, hd, _⟩ := openFile_ok_sets h
  refine ⟨hm, hd, ?_⟩
  unfold manifestContent manifestJson
  rw [hm, hd]

/-- C10 witness: opening a base-only path takes the copy-up branch and
still leaves the manifest unchanged. -/
theorem openFile_preserves_manifest_witness :
    openFile [("/a", Entry.file "x")] (initState "/w") "/a"
        = .ok { initState "/w" with delta := [("/a", Entry.file "x")] } ∧
      ({ initState "/w" with delta := [("/a", Entry.file "x")] } : State).modifiedFiles
          = (initState "/w").modifiedFiles ∧
        ({ initState "/w" with delta := [("/a", Entry.file "x")] } : State).deletedFiles
            = (initState "/w").deletedFiles ∧
          manifestContent { initState "/w" with delta := [("/a", Entry.file "x")] }
              = manifestContent (initState "/w") :=
  ⟨rfl,
    openFile_preserves_manifest [("/a", Entry.file "x")] (initState "/w") "/a"
      { initState "/w" with delta := [("/a", Entry.file "x")] } rfl⟩

theorem FS.mem_write_self (fs : FS) (p : String) (e : Entry) :
    (p, e) ∈ FS.write fs p e := by
  unfold FS.write
  by_cases h : fs.any (fun kv => kv.1 = p)
  · rw [if_pos h]
    obtain ⟨kv, hkv, hp⟩ := List.any_eq_true.mp h
    have hp' : kv.1 = p := of_decide_eq_true hp
    refine List.mem_map.mpr ⟨kv, hkv, ?_⟩
    simp [hp']
  · simp [h]

theorem mem_foldl_setAdd (l : List String) (acc : List String) (x : String)
    (h : x ∈ l ∨ x ∈ acc) : x ∈ l.foldl setAdd acc := by
  induction l generalizing acc with
  | nil =>
    rcases h with h | h
    · cases h
    · exact h
  | cons y ys ih =>
    rcases h with h | h
    · rcases List.mem_cons.mp h with rfl | h'
      · exact ih (setAdd acc x) (Or.inr (mem_setAdd.mpr (Or.inr rfl)))
      · exact ih (setAdd acc y) (Or.inl h')
    · exact ih (setAdd acc y) (Or.inr (mem_setAdd.mpr (Or.inl h)))

theorem mem_childNames (fs : FS) (p k : String) (e : Entry) (hk : (k, e) ∈ fs)
    (hpre : strIsPre (dirSlash p) k = true)
    (hrest : strDrop k (dirSlash p).length ≠ "") :
    strTakeWhile (fun c => c ≠ '/') (strDrop k (dirSlash p).length) ∈ fs.childNames p := by
  unfold FS.childNames
  have hmono : ∀ (rest : FS) acc x, x ∈ acc →
      x ∈ rest.foldl
        (fun acc kv =>
          if strIsPre (dirSlash p) kv.1 then
            let r := strDrop kv.1 (dirSlash p).length
            if r = "" then acc else setAdd acc (strTakeWhile (fun c => c ≠ '/') r)
          else acc)
        acc := by
    intro rest
    induction rest with
    | nil => exact fun acc x hx => hx
    | cons kv r ih =>
      intro acc x hx
      refine ih _ x ?_
      dsimp only
      split
      · split
        · exact hx
        · exact mem_setAdd.mpr (Or.inl hx)
      · exact hx
  suffices haux : ∀ (rest : FS) acc, (k, e) ∈ rest →
      strTakeWhile (fun c => c ≠ '/') (strDrop k (dirSlash p).length) ∈
        rest.foldl
          (fun acc kv =>
            if strIsPre (dirSlash p) kv.1 then
              let r := strDrop kv.1 (dirSlash p).length
              if r = "" then acc else setAdd acc (strTakeWhile (fun c => c ≠ '/') r)
            else acc)
          acc by
    exact haux fs [] hk
  intro rest
  induction rest with
  | nil =>
    intro acc h
    cases h
  | cons kv r ih =>
    intro acc hmem
    rcases List.mem_cons.mp hmem with heq | h'
    · refine hmono r _ _ ?_
      rw [← heq]
      dsimp only
      rw [if_pos hpre, if_neg hrest]
      exact mem_setAdd.mpr (Or.inr rfl)
    · exact ih _ h'

theorem filterDeleted_of_no_match (deleted : List String) (parent : String)
    (entries : List String)
    (h : ∀ d ∈ deleted, strIsPre (parent ++ "/") d = false) :
    filterDeleted deleted parent entries = entries := by
  induction deleted generalizing entries with
  | nil => rfl
  | cons d rest ih =>
    have hstep : filterDeleted (d :: rest) parent entries
        = filterDeleted rest parent entries := by
      unfold filterDeleted
      simp only [List.foldl_cons, h d (List.mem_cons_self d rest)]
      rfl
    rw [hstep]
    exact ih entries (fun d' hd' => h d' (List.mem_cons_of_mem d hd'))

/-- C6 counterexample: the manifest file is not hidden — after a write and
`persistManifest`, listing the root directory reports
`__zi_manifest.json`. -/
theorem manifest_visible_in_readdir_cex :
    "__zi_manifest.json" ∈ namesOf
      (readdir ([] : FS) (persistManifest (writeFile (initState "/w") "/a.txt" "x")) "/") := by
  decide

/-- C6 (amended): `persistManifest` does write to the fixed well-known path
`/__zi_manifest.json` inside the delta layer, but nothing hides it from
listings: whenever the manifest is non-empty (so `persistManifest` writes),
the root is not tombstoned, no tombstone starts with `"//"` (absolute
normalized paths never do) and the delta does not map `/` to a non-directory,
the overlay's `readdir "/"` includes `__zi_manifest.json`. -/
theorem persistManifest_visible_in_readdir (base : FS) (s : State)
    (hne : ¬ (s.modifiedFiles = [] ∧ s.deletedFiles = []))
    (hroot : "/" ∉ s.deletedFiles)
    (hdd : ∀ d ∈ s.deletedFiles, strIsPre "//" d = false)
    (hrootd : s.delta.lookup "/" = none ∨ s.delta.lookup "/" = some .dir) :
    "__zi_manifest.json" ∈ namesOf (readdir base (persistManifest s) "/") := by
  have hpm : persistManifest s
      = { s with delta := s.delta.write MANIFEST_PATH (.file (manifestJson s)) } := by
    unfold persistManifest manifestContent
    rw [if_neg hne]
  have hmemw := FS.mem_write_self s.delta MANIFEST_PATH (.file (manifestJson s))
  have hname : "__zi_manifest.json" ∈
      (s.delta.write MANIFEST_PATH (.file (manifestJson s))).childNames "/" := by
    exact mem_childNames (s.delta.write MANIFEST_PATH (.file (manifestJson s)))
      "/" MANIFEST_PATH (.file (manifestJson s)) hmemw rfl (by decide)
  have hl2 : (s.delta.write MANIFEST_PATH (.file (manifestJson s))).lookup "/"
      = s.delta.lookup "/" :=
    FS.lookup_write_ne s.delta MANIFEST_PATH "/" (.file (manifestJson s)) (by decide)
  have hdelta : (s.delta.write MANIFEST_PATH (.file (manifestJson s))).readdir "/"
      = some ((s.delta.write MANIFEST_PATH (.file (manifestJson s))).childNames "/") := by
    unfold FS.readdir
    rcases hrootd with h0 | h0
    · rw [hl2, h0]
      have hne2 : (s.delta.write MANIFEST_PATH (.file (manifestJson s))).childNames "/"
          ≠ [] := by
        intro hE
        rw [hE] at hname
        cases hname
      simp [hne2]
    · rw [hl2, h0]
  rw [hpm]
  unfold readdir
  have habs : toAbsolute s.baseDir "/" = "/" := rfl
  rw [habs, if_neg hroot, hdelta]
  cases hbase : base.readdir "/" with
  | none =>
    dsimp only [Option.getD]
    rw [filterDeleted_of_no_match s.deletedFiles "/" _ hdd]
    exact mem_foldl_setAdd [] _ _
      (Or.inr (mem_foldl_setAdd _ [] _ (Or.inl hname)))
  | some bs =>
    dsimp only [Option.getD]
    rw [filterDeleted_of_no_match s.deletedFiles "/" _ hdd]
    exact mem_foldl_setAdd bs _ _
      (Or.inr (mem_foldl_setAdd _ [] _ (Or.inl hname)))

/-- C6 witness: a concrete overlay with one modified file. -/
theorem persistManifest_visible_in_readdir_witness :
    (¬ ((writeFile (initState "/w") "/a.txt" "x").modifiedFiles = []
        ∧ (writeFile (initState "/w") "/a.txt" "x").deletedFiles = [])) ∧
      "/" ∉ (writeFile (initState "/w") "/a.txt" "x").deletedFiles ∧
      (∀ d ∈ (writeFile (initState "/w") "/a.txt" "x").deletedFiles,
        strIsPre "//" d = false) ∧
      (writeFile (initState "/w") "/a.txt" "x").delta.lookup "/" = none ∧
      "__zi_manifest.json" ∈ namesOf
        (readdir [("/b.txt", Entry.file "y")]
          (persistManifest (writeFile (initState "/w") "/a.txt" "x")) "/") :=
  ⟨by decide, by decide, by decide, by decide,
    persistManifest_visible_in_readdir [("/b.txt", Entry.file "y")]
      (writeFile (initState "/w") "/a.txt" "x") (by decide) (by decide) (by decide)
      (Or.inl (by decide))⟩

end Zi.Overlay

namespace Zi.Session

theorem chainTo_none (l : List Entry) (f : Nat) : chainTo l f none = [] := by
  cases f <;> rfl

theorem findEntry_eq_none {l : List Entry} {i : String} (h : i ∉ idsOf l) :
    findEntry l i = none := by
  rw [findEntry, List.find?_eq_none]
  intro e he hid
  exact h (List.mem_map.mpr ⟨e, he, of_decide_eq_true hid⟩)

theorem findEntry_isSome {l : List Entry} {i : String} (h : i ∈ idsOf l) :
    ∃ e, findEntry l i = some e := by
  obtain ⟨e, he, hid⟩ := List.mem_map.mp h
  cases hf : findEntry l i with
  | some e' => exact ⟨e', rfl⟩
  | none =>
    rw [findEntry, List.find?_eq_none] at hf
    exact absurd (by simpa using hid) (hf e he)

theorem findEntry_mem {l : List Entry} {i : String} {e : Entry}
    (h : findEntry l i = some e) : e ∈ l ∧ e.id = i := by
  refine ⟨List.mem_of_find?_eq_some h, ?_⟩
  have := List.find?_some h
  exact of_decide_eq_true this

theorem findEntry_append_left {l : List Entry} (new : Entry) {i : String}
    (h : i ∈ idsOf l) : findEntry (l ++ [new]) i = findEntry l i := by
  obtain ⟨e, he⟩ := findEntry_isSome h
  rw [he]
  rw [findEntry] at he
  rw [findEntry, List.find?_append, he]
  rfl

/-- Appending an entry does not change the parent walk from any existing id
(the walk looks existing ids up left-to-right and follows parents, which stay
inside the existing ids). -/
theorem chainTo_append_fresh {l : List Entry} {new : Entry}
    (hpc : ParentsClosed l) :
    ∀ (fuel : Nat) (i : String), i ∈ idsOf l →
      chainTo (l ++ [new]) fuel (some i) = chainTo l fuel (some i) := by
  intro fuel
  induction fuel with
  | zero => intro i _; rfl
  | succ f ih =>
    intro i hi
    rw [chainTo, chainTo, findEntry_append_left new hi]
    cases he : findEntry l i with
    | none => rfl
    | some e =>
      dsimp only
      cases hp : e.parentId with
      | none => rw [chainTo_none, chainTo_none]
      | some pid =>
        have hpid : pid ∈ idsOf l := hpc e (findEntry_mem he).1 pid hp
        rw [ih pid hpid]

theorem findEntry_get (l : List Entry) (hnd : (idsOf l).Nodup) (iv : Nat)
    (hi : iv < l.length) : findEntry l ((l.get ⟨iv, hi⟩).id) = some (l.get ⟨iv, hi⟩) := by
  induction l generalizing iv with
  | nil => exact absurd hi (by simp)
  | cons x xs ih =>
    cases iv with
    | zero =>
      rw [findEntry]
      exact List.find?_cons_of_pos _ (by simp)
    | succ j =>
      have hj : j < xs.length := Nat.lt_of_succ_lt_succ hi
      have hget : ((x :: xs).get ⟨j + 1, hi⟩) = xs.get ⟨j, hj⟩ := rfl
      rw [hget]
      have hnd' : (idsOf xs).Nodup := (List.nodup_cons.mp hnd).2
      have hx : x.id ∉ idsOf xs := (List.nodup_cons.mp hnd).1
      have hne : ¬ x.id = (xs.get ⟨j, hj⟩).id := by
        intro hEq
        exact hx (hEq ▸ List.mem_map.mpr ⟨xs.get ⟨j, hj⟩, xs.get_mem _ _, rfl⟩)
      rw [findEntry]
      rw [List.find?_cons_of_neg _ (by simpa using hne)]
      exact ih hnd' j hj

/-- On a well-formed log, the parent walk is fuel-independent once the fuel
exceeds the entry's index (the walk strictly descends through indices). -/
theorem chainTo_fuel_stable {l : List Entry} (hwf : WF l) :
    ∀ (k iv : Nat) (hi : iv < l.length), iv ≤ k →
      ∀ f g, iv < f → iv < g →
        chainTo l f (some (l.get ⟨iv, hi⟩).id) = chainTo l g (some (l.get ⟨iv, hi⟩).id) := by
  intro k
  induction k with
  | zero =>
    intro iv hi hk f g hf hg
    obtain rfl : iv = 0 := Nat.le_zero.mp hk
    cases f with
    | zero => omega
    | succ f' =>
      cases g with
      | zero => omega
      | succ g' =>
        rw [chainTo, chainTo, findEntry_get l hwf.1 0 hi]
        dsimp only
        rcases hwf.2 ⟨0, hi⟩ with hnone | ⟨j, hj, _⟩
        · rw [hnone, chainTo_none, chainTo_none]
        · exact absurd hj (Nat.not_lt_zero _)
  | succ k ih =>
    intro iv hi hk f g hf hg
    cases f with
    | zero => omega
    | succ f' =>
      cases g with
      | zero => omega
      | succ g' =>
        rw [chainTo, chainTo, findEntry_get l hwf.1 iv hi]
        dsimp only
        rcases hwf.2 ⟨iv, hi⟩ with hnone | ⟨j, hjlt, hjid⟩
        · rw [hnone, chainTo_none, chainTo_none]
        · rw [← hjid]
          have hjlt' : j.val < iv := hjlt
          have hstep := ih j.val j.isLt (by omega) f' g' (by omega) (by omega)
          rw [hstep]

/-- Fuel-independence stated by id for fuels at least the log length. -/
theorem chainTo_fuel_ge {l : List Entry} (hwf : WF l) {i : String}
    (hi : i ∈ idsOf l) {f g : Nat} (hf : l.length ≤ f) (hg : l.length ≤ g) :
    chainTo l f (some i) = chainTo l g (some i) := by
  obtain ⟨e, he, hid⟩ := List.mem_map.mp hi
  obtain ⟨iv, hget⟩ := List.mem_iff_get.mp he
  subst hid
  rw [← hget]
  exact chainTo_fuel_stable hwf iv.val iv.val iv.isLt (Nat.le_refl _) f g
    (by omega) (by omega)

theorem WF.parentsClosed {l : List Entry} (hwf : WF l) : ParentsClosed l := by
  intro e he p hp
  obtain ⟨iv, hget⟩ := List.mem_iff_get.mp he
  rcases hwf.2 iv with hnone | ⟨j, _, hjid⟩
  · rw [hget, hp] at hnone
    cases hnone
  · rw [hget, hp] at hjid
    obtain rfl : (l.get j).id = p := Option.some.inj hjid
    exact List.mem_map.mpr ⟨l.get j, l.get_mem _ _, rfl⟩

theorem branch_ok_elim {s : SessionState} {x : String} {t : SessionState}
    (h : branch s x = .ok t) :
    x ∈ idsOf s.entries ∧ t = { s with leafId := some x } := by
  unfold branch at h
  split at h
  · cases h
    rename_i hany
    obtain ⟨e, he, hid⟩ := List.any_eq_true.mp hany
    exact ⟨List.mem_map.mpr ⟨e, he, of_decide_eq_true hid⟩, rfl⟩
  · cases h

theorem insertByTs_length (e : Entry) (l : List Entry) :
    (insertByTs e l).length = l.length + 1 := by
  induction l with
  | nil => rfl
  | cons x xs ih =>
    rw [insertByTs]
    split
    · rfl
    · simpa using ih

theorem sortByTimestamp_length (l : List Entry) :
    (sortByTimestamp l).length = l.length := by
  induction l with
  | nil => rfl
  | cons x xs ih =>
    show (insertByTs x (sortByTimestamp xs)).length = xs.length + 1
    rw [insertByTs_length, ih]

/-- C7: after `branch(x)`, the next `appendMessage` (with a fresh id) hangs
its entry under `x`: the log grows by exactly that entry, `getChildren(x)`
grows by exactly one, and `getBranch()` from the new leaf is the old
root-to-`x` path plus the new entry — siblings appended after `x` earlier
are excluded. -/
theorem branch_then_append (s : SessionState) (x n : String) (ts : Nat) (role : Role)
    (content : MsgContent) (invs : List ToolInvocation) (provider model : Option String)
    (hpc : ParentsClosed s.entries) (hn : n ∉ idsOf s.entries) :
    ∀ t, branch s x = .ok t →
      (appendMessage t n ts role content invs provider model).1.entries
          = s.entries ++ [⟨n, some x, ts, .message role content invs provider model⟩] ∧
        (getChildren (appendMessage t n ts role content invs provider model).1 x).length
          = (getChildren s x).length + 1 ∧
        getBranch (appendMessage t n ts role content invs provider model).1 none
          = getBranch s (some x)
              ++ [⟨n, some x, ts, .message role content invs provider model⟩] := by
  intro t ht
  obtain ⟨hx, rfl⟩ := branch_ok_elim ht
  refine ⟨rfl, ?_, ?_⟩
  · unfold getChildren
    rw [sortByTimestamp_length, sortByTimestamp_length]
    show (List.filter _ (s.entries ++ [_])).length = _
    rw [List.filter_append]
    simp
  · have hfind : findEntry
        (s.entries ++ [⟨n, some x, ts, .message role content invs provider model⟩]) n
        = some ⟨n, some x, ts, .message role content invs provider model⟩ := by
      rw [findEntry, List.find?_append]
      rw [show List.find? (fun e => e.id = n) s.entries = none from findEntry_eq_none hn]
      simp [List.find?_cons_of_pos]
    unfold getBranch
    dsimp only [appendMessage, appendEntry]
    rw [List.length_append, List.length_singleton, chainTo, hfind]
    dsimp only
    rw [chainTo_append_fresh hpc s.entries.length x hx]

/-- C7 witness: a two-entry session, branched back to the root entry. -/
theorem branch_then_append_witness :
    ParentsClosed [(⟨"a", none, 1, .message .user (.str "hi") [] none none⟩ : Entry),
        ⟨"b", some "a", 2, .message .assistant (.str "hey") [] none none⟩] ∧
      "c" ∉ idsOf [(⟨"a", none, 1, .message .user (.str "hi") [] none none⟩ : Entry),
        ⟨"b", some "a", 2, .message .assistant (.str "hey") [] none none⟩] ∧
      ((appendMessage
            { entries := [⟨"a", none, 1, .message .user (.str "hi") [] none none⟩,
                ⟨"b", some "a", 2, .message .assistant (.str "hey") [] none none⟩],
              leafId := some "a" }
            "c" 3 .assistant (.str "yo") [] none none).1.entries
          = [⟨"a", none, 1, .message .user (.str "hi") [] none none⟩,
              ⟨"b", some "a", 2, .message .assistant (.str "hey") [] none none⟩]
            ++ [⟨"c", some "a", 3, .message .assistant (.str "yo") [] none none⟩] ∧
        (getChildren (appendMessage
            { entries := [⟨"a", none, 1, .message .user (.str "hi") [] none none⟩,
                ⟨"b", some "a", 2, .message .assistant (.str "hey") [] none none⟩],
              leafId := some "a" }
            "c" 3 .assistant (.str "yo") [] none none).1 "a").length
          = (getChildren
              { entries := [⟨"a", none, 1, .message .user (.str "hi") [] none none⟩,
                  ⟨"b", some "a", 2, .message .assistant (.str "hey") [] none none⟩],
                leafId := some "b" } "a").length + 1 ∧
        getBranch (appendMessage
            { entries := [⟨"a", none, 1, .message .user (.str "hi") [] none none⟩,
                ⟨"b", some "a", 2, .message .assistant (.str "hey") [] none none⟩],
              leafId := some "a" }
            "c" 3 .assistant (.str "yo") [] none none).1 none
          = getBranch
              { entries := [⟨"a", none, 1, .message .user (.str "hi") [] none none⟩,
                  ⟨"b", some "a", 2, .message .assistant (.str "hey") [] none none⟩],
                leafId := some "b" } (some "a")
            ++ [⟨"c", some "a", 3, .message .assistant (.str "yo") [] none none⟩]) := by
  have hpc : ParentsClosed
      [(⟨"a", none, 1, .message .user (.str "hi") [] none none⟩ : Entry),
        ⟨"b", some "a", 2, .message .assistant (.str "hey") [] none none⟩] :=
    WF.parentsClosed (by decide)
  exact ⟨hpc, by decide,
    branch_then_append
      { entries := [⟨"a", none, 1, .message .user (.str "hi") [] none none⟩,
          ⟨"b", some "a", 2, .message .assistant (.str "hey") [] none none⟩],
        leafId := some "b" }
      "a" "c" 3 .assistant (.str "yo") [] none none hpc (by decide)
      { entries := [⟨"a", none, 1, .message .user (.str "hi") [] none none⟩,
          ⟨"b", some "a", 2, .message .assistant (.str "hey") [] none none⟩],
        leafId := some "a" }
      rfl⟩

/-- The last-wins fold over the branch equals the spec's description: the
most recent model-tagged entry on the path decides the active model. -/
theorem foldModel_eq_spec (path : List Entry) :
    foldModel path = specMostRecentModel path := by
  induction path using List.reverseRecOn with
  | nil => rfl
  | append_singleton l e ih =>
    unfold foldModel specMostRecentModel at ih ⊢
    rw [List.foldl_append, List.filter_append]
    cases htag : entryModelTag e with
    | some m =>
      have hf : List.filter (fun e => (entryModelTag e).isSome) [e] = [e] := by
        simp [htag]
      rw [hf, List.getLast?_concat]
      simp only [List.foldl, htag, Option.some_bind]
    | none =>
      have hf : List.filter (fun e => (entryModelTag e).isSome) [e] = [] := by
        simp [htag]
      rw [hf, List.append_nil]
      simp only [List.foldl, htag]
      exact ih

/-- C8: `buildSessionContext`'s model equals the most recent model tag
strictly on the root-to-leaf path, and appending a `ModelChange` after
branching away leaves the context built from the other branch's leaf
untouched. -/
theorem buildSessionContext_model_spec (s : SessionState) (x n : String) (ts : Nat)
    (prov mid : String) (y : String)
    (hwf : WF s.entries) (hx : x ∈ idsOf s.entries) (hn : n ∉ idsOf s.entries)
    (hy : y ∈ idsOf s.entries) :
    (buildSessionContext s).model = specMostRecentModel (getBranch s none) ∧
      ∀ t u t', branch s y = .ok t → branch s x = .ok u →
        branch (appendModelChange u n ts prov mid).1 y = .ok t' →
        buildSessionContext t' = buildSessionContext t := by
  constructor
  · exact foldModel_eq_spec (getBranch s none)
  · intro t u t' ht hu ht'
    obtain ⟨-, rfl⟩ := branch_ok_elim ht
    obtain ⟨-, rfl⟩ := branch_ok_elim hu
    obtain ⟨-, rfl⟩ := branch_ok_elim ht'
    have hpath : getBranch
        { (appendModelChange { s with leafId := some x } n ts prov mid).1 with
            leafId := some y } none
        = getBranch { s with leafId := some y } none := by
      unfold getBranch
      dsimp only [appendModelChange, appendEntry]
      rw [List.length_append, List.length_singleton]
      rw [chainTo_append_fresh hwf.parentsClosed (s.entries.length + 1) y hy]
      exact chainTo_fuel_ge hwf hy (by omega) (by omega)
    simp only [buildSessionContext]
    rw [hpath]

/-- C8 witness: branch away from the root below a `model_change`, append a
new `model_change` on the sibling branch, and rebuild the context from the
original leaf. -/
theorem buildSessionContext_model_spec_witness :
    WF [(⟨"a", none, 1, .message .user (.str "hi") [] none none⟩ : Entry),
        ⟨"m1", some "a", 2, .modelChange "openai" "gpt"⟩] ∧
      "a" ∈ idsOf [(⟨"a", none, 1, .message .user (.str "hi") [] none none⟩ : Entry),
        ⟨"m1", some "a", 2, .modelChange "openai" "gpt"⟩] ∧
      "m2" ∉ idsOf [(⟨"a", none, 1, .message .user (.str "hi") [] none none⟩ : Entry),
        ⟨"m1", some "a", 2, .modelChange "openai" "gpt"⟩] ∧
      "m1" ∈ idsOf [(⟨"a", none, 1, .message .user (.str "hi") [] none none⟩ : Entry),
        ⟨"m1", some "a", 2, .modelChange "openai" "gpt"⟩] ∧
      ((buildSessionContext
          { entries := [⟨"a", none, 1, .message .user (.str "hi") [] none none⟩,
              ⟨"m1", some "a", 2, .modelChange "openai" "gpt"⟩],
            leafId := some "m1" }).model
        = specMostRecentModel (getBranch
            { entries := [⟨"a", none, 1, .message .user (.str "hi") [] none none⟩,
                ⟨"m1", some "a", 2, .modelChange "openai" "gpt"⟩],
              leafId := some "m1" } none)) ∧
      buildSessionContext
          { (appendModelChange
              { entries := [⟨"a", none, 1, .message .user (.str "hi") [] none none⟩,
                  ⟨"m1", some "a", 2, .modelChange "openai" "gpt"⟩],
                leafId := some "a" } "m2" 3 "anthropic" "claude").1 with
            leafId := some "m1" }
        = buildSessionContext
            { entries := [⟨"a", none, 1, .message .user (.str "hi") [] none none⟩,
                ⟨"m1", some "a", 2, .modelChange "openai" "gpt"⟩],
              leafId := some "m1" } := by
  have h := buildSessionContext_model_spec
    { entries := [⟨"a", none, 1, .message .user (.str "hi") [] none none⟩,
        ⟨"m1", some "a", 2, .modelChange "openai" "gpt"⟩],
      leafId := some "m1" }
    "a" "m2" 3 "anthropic" "claude" "m1" (by decide) (by decide) (by decide) (by decide)
  exact ⟨by decide, by decide, by decide, by decide, h.1,
    h.2
      { entries := [⟨"a", none, 1, .message .user (.str "hi") [] none none⟩,
          ⟨"m1", some "a", 2, .modelChange "openai" "gpt"⟩],
        leafId := some "m1" }
      { entries := [⟨"a", none, 1, .message .user (.str "hi") [] none none⟩,
          ⟨"m1", some "a", 2, .modelChange "openai" "gpt"⟩],
        leafId := some "a" }
      { (appendModelChange
          { entries := [⟨"a", none, 1, .message .user (.str "hi") [] none none⟩,
              ⟨"m1", some "a", 2, .modelChange "openai" "gpt"⟩],
            leafId := some "a" } "m2" 3 "anthropic" "claude").1 with
        leafId := some "m1" }
      rfl rfl rfl⟩

end Zi.Session

namespace Zi.Apply

theorem existsSync_eraseReal_ne (real : RealFS) (p q : String) (h : q ≠ p) :
    existsSync (eraseReal real p) q = existsSync real q := by
  unfold existsSync eraseReal
  rw [Bool.eq_iff_iff, List.any_eq_true, List.any_eq_true]
  constructor
  · rintro ⟨kv, hkv, hq⟩
    exact ⟨kv, (List.mem_filter.mp hkv).1, hq⟩
  · rintro ⟨kv, hkv, hq⟩
    refine ⟨kv, List.mem_filter.mpr ⟨hkv, ?_⟩, hq⟩
    have hkq : kv.1 = q := of_decide_eq_true hq
    simp [hkq, h]

theorem previewModified_spec (real : RealFS) (delta : DeltaFS) :
    ∀ modifiedFiles : List String,
      (∀ p ∈ modifiedFiles, deltaRead delta p ≠ none) →
      previewModified real delta modifiedFiles
        = .ok (modifiedFiles.map (fun p =>
            ⟨p, if existsSync real p then .M else .A,
              ((deltaRead delta p).getD "").length⟩)) := by
  intro modifiedFiles
  induction modifiedFiles with
  | nil => intro _; rfl
  | cons p rest ih =>
    intro h
    have hp := h p (List.mem_cons_self p rest)
    cases hc : deltaRead delta p with
    | none => exact absurd hc hp
    | some c =>
      rw [previewModified, hc, ih (fun q hq => h q (List.mem_cons_of_mem p hq))]
      rw [List.map_cons, hc]
      rfl

theorem previewDeleted_spec (real : RealFS) :
    ∀ deletedFiles : List String,
      previewDeleted real deletedFiles
        = deletedFiles.filter (fun p => existsSync real p) := by
  intro deletedFiles
  induction deletedFiles with
  | nil => rfl
  | cons p rest ih =>
    rw [previewDeleted, List.filter_cons]
    cases he : existsSync real p with
    | true => rw [if_pos rfl, if_pos rfl, ih]
    | false => rw [if_neg (by simp), if_neg (by simp), ih]

theorem applyModifiedLoop_count (delta : DeltaFS) :
    ∀ (modifiedFiles : List String) (real : RealFS),
      (∀ p ∈ modifiedFiles, deltaRead delta p ≠ none) →
      ∃ real1, applyModifiedLoop delta real modifiedFiles
        = .ok (real1, modifiedFiles.length) := by
  intro modifiedFiles
  induction modifiedFiles with
  | nil => exact fun real _ => ⟨real, rfl⟩
  | cons p rest ih =>
    intro real h
    have hp := h p (List.mem_cons_self p rest)
    cases hc : deltaRead delta p with
    | none => exact absurd hc hp
    | some c =>
      obtain ⟨r1, hr1⟩ := ih (writeReal real p c)
        (fun q hq => h q (List.mem_cons_of_mem p hq))
      refine ⟨r1, ?_⟩
      rw [applyModifiedLoop, hc]
      dsimp only
      rw [hr1]
      rfl

theorem applyDeletedLoop_count :
    ∀ (deletedFiles : List String) (real : RealFS), deletedFiles.Nodup →
      (applyDeletedLoop real deletedFiles).2
        = (deletedFiles.filter (fun p => existsSync real p)).length := by
  intro deletedFiles
  induction deletedFiles with
  | nil => intro real _; rfl
  | cons p rest ih =>
    intro real hnd
    obtain ⟨hp, hnd'⟩ := List.nodup_cons.mp hnd
    rw [applyDeletedLoop, List.filter_cons]
    cases he : existsSync real p with
    | true =>
      simp only [he, if_true]
      have hcong : rest.filter (fun q => existsSync (eraseReal real p) q)
          = rest.filter (fun q => existsSync real q) := by
        apply List.filter_congr
        intro q hq
        exact existsSync_eraseReal_ne real p q (fun hqp => hp (hqp ▸ hq))
      rw [ih (eraseReal real p) hnd', hcong]
      simp
    | false =>
      simp only [he, Bool.false_eq_true, if_false]
      exact ih real hnd'

/-- C9: with a loaded manifest whose modified paths are all present in the
delta layer, the preview lists each modified path as `A` exactly when the
real filesystem lacks it (`M` otherwise) with the delta content's byte
count, reports a deleted path only while the real filesystem still has it,
and the confirmed apply writes every modified path and removes the
still-present deleted paths, reporting their total as the applied count. -/
theorem applySession_preview_and_count (real : RealFS) (delta : DeltaFS)
    (modifiedFiles deletedFiles : List String)
    (hdelta : ∀ p ∈ modifiedFiles, deltaRead delta p ≠ none)
    (hnd : deletedFiles.Nodup) :
    previewModified real delta modifiedFiles
        = .ok (modifiedFiles.map (fun p =>
            ⟨p, if existsSync real p then .M else .A,
              ((deltaRead delta p).getD "").length⟩)) ∧
      previewDeleted real deletedFiles
        = deletedFiles.filter (fun p => existsSync real p) ∧
      ∃ real1 realFinal,
        applyModifiedLoop delta real modifiedFiles = .ok (real1, modifiedFiles.length) ∧
        applyChanges delta real modifiedFiles deletedFiles
          = .ok (realFinal, modifiedFiles.length
              + (deletedFiles.filter (fun p => existsSync real1 p)).length) := by
  refine ⟨previewModified_spec real delta modifiedFiles hdelta,
    previewDeleted_spec real deletedFiles, ?_⟩
  obtain ⟨real1, hloop⟩ := applyModifiedLoop_count delta modifiedFiles real hdelta
  refine ⟨real1, (applyDeletedLoop real1 deletedFiles).1, ?_, ?_⟩
  · exact hloop
  · unfold applyChanges
    rw [hloop]
    show Except.ok ((applyDeletedLoop real1 deletedFiles).1,
        modifiedFiles.length + (applyDeletedLoop real1 deletedFiles).2) = _
    rw [applyDeletedLoop_count deletedFiles real1 hnd]

/-- C9 witness: one new file, one changed file, one deleted file still on
disk and one already gone. -/
theorem applySession_preview_and_count_witness :
    (∀ p ∈ ["/new.txt", "/old.txt"],
        deltaRead [("/new.txt", "hello"), ("/old.txt", "xyz")] p ≠ none) ∧
      (["/del.txt", "/gone.txt"] : List String).Nodup ∧
      (previewModified [("/old.txt", "abc"), ("/del.txt", "zz")]
            [("/new.txt", "hello"), ("/old.txt", "xyz")] ["/new.txt", "/old.txt"]
          = .ok [⟨"/new.txt", .A, 5⟩, ⟨"/old.txt", .M, 3⟩] ∧
        previewDeleted [("/old.txt", "abc"), ("/del.txt", "zz")]
            ["/del.txt", "/gone.txt"] = ["/del.txt"] ∧
        ∃ real1 realFinal,
          applyModifiedLoop [("/new.txt", "hello"), ("/old.txt", "xyz")]
              [("/old.txt", "abc"), ("/del.txt", "zz")] ["/new.txt", "/old.txt"]
            = .ok (real1, 2) ∧
          applyChanges [("/new.txt", "hello"), ("/old.txt", "xyz")]
              [("/old.txt", "abc"), ("/del.txt", "zz")] ["/new.txt", "/old.txt"]
              ["/del.txt", "/gone.txt"]
            = .ok (realFinal, 2 + (["/del.txt", "/gone.txt"].filter
                (fun p => existsSync real1 p)).length)) := by
  have h := applySession_preview_and_count [("/old.txt", "abc"), ("/del.txt", "zz")]
    [("/new.txt", "hello"), ("/old.txt", "xyz")] ["/new.txt", "/old.txt"]
    ["/del.txt", "/gone.txt"] (by decide) (by decide)
  exact ⟨by decide, by decide, by
    obtain ⟨h1, h2, h3⟩ := h
    exact ⟨by rw [h1]; rfl, by rw [h2]; rfl, h3⟩⟩

end Zi.Apply
